import Mathlib

/-!
Verification of the toolbox query-capture / index-management pipeline
against its specification.  The pipeline's back-end is modelled from the
specification (the repository ships only the front-end assets); the
front-end behaviour (MariaDB Index form, index-manager page) is embedded
directly from the shipped JavaScript.
-/

namespace Toolbox

/-! ## Fingerprinter (spec section 4.1) -/

/-- Modelled from the spec: lexical tokens of a SQL statement.  The
fingerprinter's fallback "lexical normalization" tokenizes the statement,
keeping keywords/identifiers (`word`), numeric literals (`numLit`), string
literals (`strLit`) and punctuation (`sym`); whitespace only separates
tokens. -/
inductive Tok where
  | word : String → Tok
  | numLit : String → Tok
  | strLit : String → Tok
  | sym : Char → Tok
  deriving DecidableEq

/-- The SQL single-quote character, written by code point. -/
def sqlQuote : Char := Char.ofNat 39

/-- Whitespace characters recognized by the lexer. -/
def isWs (c : Char) : Bool := c = ' ' || c = '\t' || c = '\n' || c = '\r'

/-- First character of an identifier or keyword. -/
def isWordStart (c : Char) : Bool := c.isAlpha || c = '_'

/-- Subsequent character of an identifier or keyword. -/
def isWordChar (c : Char) : Bool := c.isAlphanum || c = '_'

/-- Character that may continue a numeric literal. -/
def isNumChar (c : Char) : Bool := c.isDigit || c = '.'

/-- Lexer mode: either at a token boundary or inside a token being read. -/
inductive LexMode where
  | top
  | inWord (acc : List Char)
  | inNum (acc : List Char)
  | inStr (acc : List Char)
  deriving DecidableEq

/-- Lexer state: tokens emitted so far plus the current mode. -/
structure LexState where
  toks : List Tok
  mode : LexMode
  deriving DecidableEq

/-- Finish the token currently being read, if any. -/
def closeMode (st : LexState) : LexState :=
  match st.mode with
  | .top => st
  | .inWord acc => { toks := st.toks ++ [Tok.word (String.mk acc)], mode := .top }
  | .inNum acc => { toks := st.toks ++ [Tok.numLit (String.mk acc)], mode := .top }
  | .inStr acc => { toks := st.toks ++ [Tok.strLit (String.mk acc)], mode := .top }

/-- Handle one character at a token boundary. -/
def topStep (st : LexState) (c : Char) : LexState :=
  if isWs c then st
  else if c = sqlQuote then { st with mode := .inStr [] }
  else if c.isDigit then { st with mode := .inNum [c] }
  else if isWordStart c then { st with mode := .inWord [c] }
  else { st with toks := st.toks ++ [Tok.sym c] }

/-- Modelled from the spec: one step of the tolerant SQL lexer. -/
def lexStep (st : LexState) (c : Char) : LexState :=
  match st.mode with
  | .top => topStep st c
  | .inWord acc =>
      if isWordChar c then { st with mode := .inWord (acc ++ [c]) }
      else topStep (closeMode st) c
  | .inNum acc =>
      if isNumChar c then { st with mode := .inNum (acc ++ [c]) }
      else topStep (closeMode st) c
  | .inStr acc =>
      if c = sqlQuote then { toks := st.toks ++ [Tok.strLit (String.mk acc)], mode := .top }
      else { st with mode := .inStr (acc ++ [c]) }

/-- Modelled from the spec: tokenize a character stream, skipping whitespace
and reading identifier, numeric-literal and string-literal tokens. -/
def lexChars (cs : List Char) : List Tok :=
  (closeMode (cs.foldl lexStep { toks := [], mode := .top })).toks

/-- Tokenize a SQL statement. -/
def lexSQL (s : String) : List Tok := lexChars s.toList

/-- Normalized token: literal values are collapsed to a placeholder,
keywords/identifiers and punctuation are preserved. -/
inductive NTok where
  | word : String → NTok
  | lit : NTok
  | sym : Char → NTok
  deriving DecidableEq

/-- Collapse literal tokens to the placeholder. -/
def normTok : Tok → NTok
  | .word w => .word w
  | .numLit _ => .lit
  | .strLit _ => .lit
  | .sym c => .sym c

/-- Modelled from the spec: `fingerprint` derives the canonical shape of a
statement — the token sequence with literals collapsed and whitespace
discarded.  The spec's opaque fingerprint string is modelled by this
canonical token sequence (any injective rendering of it would do). -/
def fingerprint (s : String) : List NTok := (lexSQL s).map normTok

/-- Whether a token is a literal (numeric or string). -/
def tokIsLit : Tok → Bool
  | .numLit _ => true
  | .strLit _ => true
  | _ => false

/-- Two token sequences agree up to literal values: same length, and at
every position the tokens are equal or both literals. -/
def litSame : List Tok → List Tok → Bool
  | [], [] => true
  | t :: ts, u :: us => (t = u || (tokIsLit t && tokIsLit u)) && litSame ts us
  | _, _ => false

theorem litSame_map_normTok :
    ∀ ts us : List Tok, litSame ts us = true → ts.map normTok = us.map normTok := by
  intro ts
  induction ts with
  | nil => intro us h; cases us with
    | nil => rfl
    | cons u us => simp [litSame] at h
  | cons t ts ih =>
    intro us h
    cases us with
    | nil => simp [litSame] at h
    | cons u us =>
      simp only [litSame, Bool.and_eq_true, Bool.or_eq_true, decide_eq_true_eq] at h
      obtain ⟨hhead, htail⟩ := h
      have hmap := ih us htail
      have : normTok t = normTok u := by
        rcases hhead with h1 | ⟨h2, h3⟩
        · rw [h1]
        · cases t <;> cases u <;> simp [tokIsLit] at h2 h3 ⊢ <;> rfl
      simp [List.map, this, hmap]

theorem ws_foldl_id :
    ∀ ws : List Char, (∀ c ∈ ws, isWs c = true) →
      ws.foldl lexStep { toks := [], mode := .top } = { toks := [], mode := .top } := by
  intro ws h
  induction ws with
  | nil => rfl
  | cons c cs ih =>
    have hc : isWs c = true := h c (by simp)
    have : lexStep { toks := [], mode := .top } c = { toks := [], mode := .top } := by
      simp [lexStep, topStep, hc]
    simp only [List.foldl, this]
    exact ih (fun d hd => h d (by simp [hd]))

/-- Claim C1: two statements that differ only in literal values (their token
sequences agree up to literals) or in whitespace (whitespace characters are
discarded by the lexer) have equal fingerprints, and two statements whose
token sequences differ at an identifier/keyword position have different
fingerprints. -/
theorem fingerprint_invariance :
    (∀ s1 s2 : String, litSame (lexSQL s1) (lexSQL s2) = true →
        fingerprint s1 = fingerprint s2) ∧
    (∀ s1 s2 : String, ∀ i : Nat, ∀ a b : String,
        (lexSQL s1)[i]? = some (Tok.word a) → (lexSQL s2)[i]? = some (Tok.word b) →
        a ≠ b → fingerprint s1 ≠ fingerprint s2) ∧
    (∀ ws cs : List Char, (∀ c ∈ ws, isWs c = true) →
        lexChars (ws ++ cs) = lexChars cs) := by
  refine ⟨?_, ?_, ?_⟩
  · intro s1 s2 h
    exact litSame_map_normTok _ _ h
  · intro s1 s2 i a b h1 h2 hab hfp
    have e1 : (fingerprint s1)[i]? = some (NTok.word a) := by
      simp [fingerprint, List.getElem?_map, h1, normTok]
    have e2 : (fingerprint s2)[i]? = some (NTok.word b) := by
      simp [fingerprint, List.getElem?_map, h2, normTok]
    rw [hfp, e2] at e1
    exact hab (by injection e1 with e; injection e with e; exact e.symm)
  · intro ws cs h
    unfold lexChars
    rw [List.foldl_append, ws_foldl_id ws h]

/-- Witness for claim C1 at concrete statements: equal fingerprints under a
changed numeric literal, different fingerprints under a changed identifier,
and invariance under leading whitespace. -/
theorem fingerprint_invariance_witness :
    fingerprint "SELECT name FROM tabUser WHERE age = 10" =
      fingerprint "SELECT name FROM tabUser WHERE age = 3" ∧
    fingerprint "SELECT a FROM t" ≠ fingerprint "SELECT b FROM t" ∧
    lexChars ([' '] ++ "x".toList) = lexChars "x".toList := by
  refine ⟨fingerprint_invariance.1 _ _ (by decide),
    fingerprint_invariance.2.1 "SELECT a FROM t" "SELECT b FROM t" 1 "a" "b"
      (by decide) (by decide) (by decide),
    fingerprint_invariance.2.2 [' '] _ (by decide)⟩

/-! ## Aggregator (spec sections 4.3 and 5) -/

/-- A query fingerprint used as the aggregation key. -/
abbrev Fingerprint := String

/-- Modelled from the spec: an operation on the aggregator — an atomic
`increment` for one fingerprint, or a `flush`.  A concurrent execution is
modelled as an arbitrary interleaving of these atomic steps. -/
inductive AggOp where
  | inc (f : Fingerprint)
  | flush
  deriving DecidableEq

/-- The counting structure: per-fingerprint occurrence counts. -/
abbrev CountMap := Fingerprint → Nat

/-- Aggregator state: the current counting structure plus the batches
returned by flushes so far (most recent first). -/
structure AggState where
  cur : CountMap
  batches : List CountMap

/-- Add one occurrence of a fingerprint to the counting structure. -/
def bump (m : CountMap) (f : Fingerprint) : CountMap :=
  fun g => if g = f then m g + 1 else m g

/-- Count recorded for a fingerprint in a counting structure. -/
def countOf (m : CountMap) (f : Fingerprint) : Nat := m f

/-- Modelled from the spec: one atomic aggregator step.  `inc` adds one to
the fingerprint count in the current structure; `flush` swaps in a fresh
empty structure and returns the prior one as a batch. -/
def aggStep (st : AggState) : AggOp → AggState
  | .inc f => { st with cur := bump st.cur f }
  | .flush => { cur := fun _ => 0, batches := st.cur :: st.batches }

/-- Run a sequence of aggregator operations from a given state. -/
def aggRun (st : AggState) (ops : List AggOp) : AggState := ops.foldl aggStep st

/-- Number of increments of a given fingerprint in an operation sequence. -/
def incCount (ops : List AggOp) (f : Fingerprint) : Nat :=
  ops.countP (fun op => op = AggOp.inc f)

/-- Total count for a fingerprint held anywhere in the aggregator: the
current structure plus every flushed batch. -/
def totalOf (st : AggState) (f : Fingerprint) : Nat :=
  countOf st.cur f + (st.batches.map (fun b => countOf b f)).sum

theorem countOf_bump (m : CountMap) (f g : Fingerprint) :
    countOf (bump m f) g = countOf m g + (if f = g then 1 else 0) := by
  by_cases h : g = f
  · subst h; simp [countOf, bump]
  · have h2 : ¬ f = g := fun e => h e.symm
    simp [countOf, bump, h, h2]

theorem totalOf_aggRun (ops : List AggOp) (st : AggState) (f : Fingerprint) :
    totalOf (aggRun st ops) f = totalOf st f + incCount ops f := by
  induction ops generalizing st with
  | nil => simp [aggRun, incCount]
  | cons op rest ih =>
    have step : totalOf (aggStep st op) f = totalOf st f + (if op = AggOp.inc f then 1 else 0) := by
      cases op with
      | inc g =>
        by_cases h : g = f
        · subst h
          simp [aggStep, totalOf, countOf_bump, Nat.add_comm, Nat.add_assoc, Nat.add_left_comm]
        · have hne : ¬ (AggOp.inc g = AggOp.inc f) := by simp [h]
          simp [aggStep, totalOf, countOf_bump, h, hne]
      | flush => simp [aggStep, totalOf, countOf, Nat.add_comm]
    calc totalOf (aggRun (aggStep st op) rest) f
        = totalOf (aggStep st op) f + incCount rest f := ih _
      _ = totalOf st f + (if op = AggOp.inc f then 1 else 0) + incCount rest f := by rw [step]
      _ = totalOf st f + incCount (op :: rest) f := by
          simp only [incCount, List.countP_cons]
          by_cases h : op = AggOp.inc f
          · simp [h]
            omega
          · simp [h]

theorem aggRun_no_flush_batches (l : List AggOp) (st : AggState)
    (hl : ∀ op ∈ l, op ≠ AggOp.flush) : (aggRun st l).batches = st.batches := by
  induction l generalizing st with
  | nil => rfl
  | cons op rest ih =>
    cases op with
    | inc g =>
      have hstep : aggRun st (AggOp.inc g :: rest) = aggRun (aggStep st (AggOp.inc g)) rest := rfl
      rw [hstep, ih _ (fun op h => hl op (by simp [h]))]
      rfl
    | flush => exact absurd rfl (hl AggOp.flush (by simp))

theorem totalOf_no_batches (st : AggState) (f : Fingerprint) (h : st.batches = []) :
    totalOf st f = countOf st.cur f := by
  simp [totalOf, h]

/-- The empty aggregator state. -/
def aggInit : AggState := { cur := fun _ => 0, batches := [] }

/-- Claim C2: conservation — after any interleaving of atomic increments and
flushes from the empty state, the current count plus the counts in all
flushed batches equals exactly the number of increments of the fingerprint
(no update is lost, double-counted or dropped); and if a trace of N
increments of `f` (arbitrarily interleaved with increments of other
fingerprints) is followed by a flush, the flush returns a batch whose count
for `f` is exactly N and swaps in a fresh empty structure. -/
theorem aggregator_exact_counts :
    (∀ ops : List AggOp, ∀ f : Fingerprint,
        totalOf (aggRun aggInit ops) f = incCount ops f) ∧
    (∀ ops : List AggOp, ∀ f : Fingerprint, ∀ N : Nat,
        (∀ op ∈ ops, op ≠ AggOp.flush) → incCount ops f = N →
        (aggRun aggInit (ops ++ [AggOp.flush])).batches.head? = some (aggRun aggInit ops).cur ∧
        countOf (aggRun aggInit ops).cur f = N ∧
        (aggRun aggInit (ops ++ [AggOp.flush])).cur = fun _ => 0) := by
  constructor
  · intro ops f
    have h := totalOf_aggRun ops aggInit f
    rw [h]
    simp [totalOf, aggInit, countOf]
  · intro ops f N hnoflush hN
    have hbatches : (aggRun aggInit ops).batches = [] := aggRun_no_flush_batches ops aggInit hnoflush
    have hcur : countOf (aggRun aggInit ops).cur f = N := by
      have h := totalOf_aggRun ops aggInit f
      rw [totalOf_no_batches _ f hbatches] at h
      rw [h, hN]
      simp [totalOf, aggInit, countOf]
    refine ⟨?_, hcur, ?_⟩
    · rw [aggRun, List.foldl_append]
      simp [aggStep, aggRun]
    · rw [aggRun, List.foldl_append]
      simp [aggStep]

/-- Witness for claim C2: three interleaved increments of fingerprint `q`
with one of fingerprint `r`, followed by a flush, yield a count of exactly
3 for `q` in the swapped-out structure. -/
theorem aggregator_exact_counts_witness :
    totalOf (aggRun aggInit [AggOp.inc "q", AggOp.inc "r", AggOp.inc "q", AggOp.inc "q"]) "q" = 3 ∧
    countOf (aggRun aggInit [AggOp.inc "q", AggOp.inc "r", AggOp.inc "q", AggOp.inc "q"]).cur "q" = 3 := by
  have h1 := aggregator_exact_counts.1 [AggOp.inc "q", AggOp.inc "r", AggOp.inc "q", AggOp.inc "q"] "q"
  have h2 := (aggregator_exact_counts.2 [AggOp.inc "q", AggOp.inc "r", AggOp.inc "q", AggOp.inc "q"] "q" 3
    (by decide) (by decide)).2.1
  exact ⟨by rw [h1]; decide, h2⟩

/-! ## MariaDB Index form view (src/unnamed/part_000) -/

/-- A form field as seen by the client script: its fieldname, whether it
takes input, and its `read_only` df property. -/
structure FormField where
  fieldname : String
  has_input : Bool
  read_only : String
  deriving DecidableEq

/-- Client-side form state: the docfields, the form-level read-only flag set
by `frm.set_read_only()`, and whether saving is enabled. -/
structure Form where
  fields : List FormField
  form_read_only : Bool
  save_enabled : Bool
  deriving DecidableEq

/-- Embedding of `frm.set_df_property(name, "read_only", "1")`: set the
`read_only` property of every field with the given fieldname. -/
def set_df_read_only (fields : List FormField) (name : String) : List FormField :=
  fields.map (fun f => if f.fieldname = name then { f with read_only := "1" } else f)

/-- Embedding of the `refresh` handler of the MariaDB Index form:
`frm.set_read_only()`, then for each field with `has_input` set its
`read_only` df property to "1", then `frm.disable_save()`. -/
def mariadb_index_refresh (frm : Form) : Form :=
  let frm1 : Form := { frm with form_read_only := true }
  let names := (frm1.fields.filter (fun f => f.has_input)).map (fun f => f.fieldname)
  let fields1 := names.foldl set_df_read_only frm1.fields
  { frm1 with fields := fields1, save_enabled := false }

theorem set_df_read_only_spec (fields : List FormField) (name : String) (f : FormField)
    (hf : f ∈ set_df_read_only fields name) :
    ∃ g ∈ fields, f.fieldname = g.fieldname ∧ f.has_input = g.has_input ∧
      (f.read_only = g.read_only ∨ f.read_only = "1") ∧
      (g.fieldname = name → f.read_only = "1") := by
  rw [set_df_read_only, List.mem_map] at hf
  obtain ⟨g, hg, hfg⟩ := hf
  by_cases h : g.fieldname = name
  · rw [if_pos h] at hfg
    exact ⟨g, hg, by rw [← hfg], by rw [← hfg], Or.inr (by rw [← hfg]), fun _ => by rw [← hfg]⟩
  · rw [if_neg h] at hfg
    exact ⟨g, hg, by rw [hfg], by rw [hfg], Or.inl (by rw [hfg]), fun hn => absurd hn h⟩

theorem foldl_set_df_read_only_track :
    ∀ (names : List String) (fields : List FormField) (f : FormField),
      f ∈ names.foldl set_df_read_only fields →
      ∃ g ∈ fields, f.fieldname = g.fieldname ∧ f.has_input = g.has_input := by
  intro names
  induction names with
  | nil => intro fields f hf; exact ⟨f, hf, rfl, rfl⟩
  | cons n rest ih =>
    intro fields f hf
    obtain ⟨g, hg, hname, hinput⟩ := ih _ f hf
    obtain ⟨g0, hg0, hname0, hinput0, _, _⟩ := set_df_read_only_spec fields n g hg
    exact ⟨g0, hg0, hname.trans hname0, hinput.trans hinput0⟩

theorem foldl_set_df_read_only_keeps (n : String) :
    ∀ (names : List String) (fields : List FormField),
      (∀ g ∈ fields, g.fieldname = n → g.read_only = "1") →
      ∀ f ∈ names.foldl set_df_read_only fields, f.fieldname = n → f.read_only = "1" := by
  intro names
  induction names with
  | nil => intro fields hpre f hf hfn; exact hpre f hf hfn
  | cons m rest ih =>
    intro fields hpre f hf hfn
    refine ih (set_df_read_only fields m) ?_ f hf hfn
    intro g hg hgn
    obtain ⟨g0, hg0, hname0, _, hro0, hset0⟩ := set_df_read_only_spec fields m g hg
    rcases hro0 with h | h
    · rw [h]
      exact hpre g0 hg0 (hname0 ▸ hgn)
    · exact h

theorem foldl_set_df_read_only_sets :
    ∀ (names : List String) (fields : List FormField) (f : FormField),
      f ∈ names.foldl set_df_read_only fields → f.fieldname ∈ names →
      f.read_only = "1" := by
  intro names
  induction names with
  | nil => intro fields f _ h; exact absurd h (List.not_mem_nil _)
  | cons n rest ih =>
    intro fields f hf hmem
    by_cases hr : f.fieldname ∈ rest
    · exact ih _ f hf hr
    · have hn : f.fieldname = n := by
        rcases List.mem_cons.mp hmem with h | h
        · exact h
        · exact absurd h hr
      refine foldl_set_df_read_only_keeps n rest (set_df_read_only fields n) ?_ f hf hn
      intro g hg hgn
      obtain ⟨g0, _, hname0, _, _, hset0⟩ := set_df_read_only_spec fields n g hg
      exact hset0 (hname0 ▸ hgn)

/-- Claim C9: after every refresh of the MariaDB Index form, the form is
read-only, saving is disabled, and every field that has an input carries the
read-only df property, so no record can be modified through this view. -/
theorem mariadb_index_view_read_only (frm : Form) :
    (mariadb_index_refresh frm).form_read_only = true ∧
    (mariadb_index_refresh frm).save_enabled = false ∧
    (∀ f ∈ (mariadb_index_refresh frm).fields, f.has_input = true → f.read_only = "1") := by
  refine ⟨rfl, rfl, ?_⟩
  intro f hf hinput
  have hf1 : f ∈ ((frm.fields.filter (fun g => g.has_input)).map
      (fun g => g.fieldname)).foldl set_df_read_only frm.fields := hf
  obtain ⟨g, hg, hname, hinputs⟩ := foldl_set_df_read_only_track _ _ f hf1
  have hgin : g.has_input = true := hinputs ▸ hinput
  have hgmem : g.fieldname ∈ (frm.fields.filter (fun h => h.has_input)).map
      (fun h => h.fieldname) :=
    List.mem_map_of_mem _ (List.mem_filter.mpr ⟨hg, hgin⟩)
  exact foldl_set_df_read_only_sets _ _ f hf1 (hname ▸ hgmem)

/-- A concrete MariaDB Index form with one input field and one display
field, used to witness the refresh theorem. -/
def testIndexForm : Form :=
  { fields := [{ fieldname := "idx", has_input := true, read_only := "0" },
               { fieldname := "html_view", has_input := false, read_only := "0" }],
    form_read_only := false, save_enabled := true }

/-- Witness for claim C9: on a concrete form, refresh disables saving and
the input field ends up read-only. -/
theorem mariadb_index_view_read_only_witness :
    (mariadb_index_refresh testIndexForm).save_enabled = false ∧
    ({ fieldname := "idx", has_input := true, read_only := "1" } : FormField).read_only = "1" := by
  refine ⟨(mariadb_index_view_read_only testIndexForm).2.1,
    (mariadb_index_view_read_only testIndexForm).2.2 _ (by decide) (by decide)⟩

/-! ## Index-manager page refresh (src/unnamed/part_001) -/

/-- One observable effect of the index-manager page refresh handler. -/
inductive PageEffect where
  | setHtml (content : String)
  | clearContent
  | apiCall (method : String)
  | render (widget : String)
  | removeLayout
  deriving DecidableEq

/-- The message rendered when the Index Manager feature is disabled. -/
def disabledMessage : String := "Index Manager is disabled"

/-- Embedding of `frappe.pages['index-manager'].refresh`: when the boot flag
is off, render only the disabled message with the settings link and return;
otherwise clear the page content, fetch and render the toolbox-indexes
shortcut, the active-tables chart and the SQL-stats chart, then remove the
stock layout row. -/
def index_manager_refresh (enabled : Bool) : List PageEffect :=
  if !enabled then
    [PageEffect.setHtml disabledMessage]
  else
    [PageEffect.clearContent,
     PageEffect.apiCall "toolbox.api.index_manager.indexes",
     PageEffect.render "mariadb-indexes-shortcut",
     PageEffect.apiCall "toolbox.api.index_manager.tables",
     PageEffect.render "active-tables-chart",
     PageEffect.apiCall "toolbox.api.index_manager.summary",
     PageEffect.render "sql-stats-chart",
     PageEffect.removeLayout]

/-- Whether an effect is a data-fetch call. -/
def isFetch : PageEffect → Bool
  | .apiCall _ => true
  | _ => false

/-- Claim C10: with the boot flag off, the page renders only the disabled
message and issues no data-fetch call; with it on, the content is cleared
and the indexes shortcut, tables chart and SQL-stats chart are each fetched
and rendered, in that order. -/
theorem index_manager_refresh_gating (enabled : Bool) :
    (enabled = false →
      index_manager_refresh enabled = [PageEffect.setHtml disabledMessage] ∧
      (index_manager_refresh enabled).filter isFetch = []) ∧
    (enabled = true →
      (index_manager_refresh enabled).head? = some PageEffect.clearContent ∧
      (index_manager_refresh enabled).filter isFetch =
        [PageEffect.apiCall "toolbox.api.index_manager.indexes",
         PageEffect.apiCall "toolbox.api.index_manager.tables",
         PageEffect.apiCall "toolbox.api.index_manager.summary"] ∧
      PageEffect.render "mariadb-indexes-shortcut" ∈ index_manager_refresh enabled ∧
      PageEffect.render "active-tables-chart" ∈ index_manager_refresh enabled ∧
      PageEffect.render "sql-stats-chart" ∈ index_manager_refresh enabled) := by
  cases enabled
  · exact ⟨fun _ => ⟨by decide, by decide⟩, fun h => (by cases h)⟩
  · exact ⟨fun h => (by cases h), fun _ => ⟨by decide, by decide, by decide, by decide, by decide⟩⟩

/-- Witness for claim C10 at both concrete flag values: disabled issues no
fetch, enabled fetches the three data sources. -/
theorem index_manager_refresh_gating_witness :
    (index_manager_refresh false).filter isFetch = [] ∧
    (index_manager_refresh true).filter isFetch =
      [PageEffect.apiCall "toolbox.api.index_manager.indexes",
       PageEffect.apiCall "toolbox.api.index_manager.tables",
       PageEffect.apiCall "toolbox.api.index_manager.summary"] :=
  ⟨((index_manager_refresh_gating false).1 rfl).2,
   ((index_manager_refresh_gating true).2 rfl).2.1⟩

/-! ## Managed index catalog (spec sections 3, 4.6, 6, 7) -/

/-- A database index as listed in the engine catalog. -/
structure DBIndex where
  name : String
  table : String
  cols : List String
  deriving DecidableEq

/-- Modelled from the spec: the recognizable system-generated name tag. -/
def toolboxTag : List Char := "toolbox_idx_".toList

/-- Whether an index carries the system's generated-name tag. -/
def isManaged (i : DBIndex) : Bool := decide (toolboxTag <+: i.name.toList)

/-- Modelled from the spec: the generated, tagged name of an index the
system creates on a table's column list. -/
def genName (table : String) (cols : List String) : String :=
  String.mk toolboxTag ++ table ++ "_" ++ String.intercalate "_" cols

theorem isManaged_genName (table : String) (cols : List String) :
    isManaged { name := genName table cols, table := table, cols := cols } = true := by
  simp only [isManaged, genName, decide_eq_true_eq]
  have h : (String.mk toolboxTag ++ table ++ "_" ++ String.intercalate "_" cols).toList
      = toolboxTag ++ (table ++ "_" ++ String.intercalate "_" cols).toList := by
    simp [String.toList]
  rw [h]
  exact List.prefix_append _ _

/-- Modelled from the spec: catalog operations the lifecycle manager may
perform.  Creation generates a tagged name; every drop operation is scoped
to tagged entries — drop-by-name and drop-by-table enumerate only entries
carrying the tag, and the bulk drop enumerates exactly the tagged entries
of the catalog, never inferring indexes by heuristic. -/
inductive IdxOp where
  | createManaged (table : String) (cols : List String)
  | dropManagedByName (name : String)
  | dropManagedByTable (table : String)
  | dropAllManaged
  deriving DecidableEq

/-- One catalog step: the resulting catalog and the indexes dropped. -/
def idxStep (cat : List DBIndex) : IdxOp → List DBIndex × List DBIndex
  | .createManaged t cols =>
      ({ name := genName t cols, table := t, cols := cols } :: cat, [])
  | .dropManagedByName n =>
      (cat.filter (fun i => !(isManaged i && i.name = n)),
       cat.filter (fun i => isManaged i && i.name = n))
  | .dropManagedByTable t =>
      (cat.filter (fun i => !(isManaged i && i.table = t)),
       cat.filter (fun i => isManaged i && i.table = t))
  | .dropAllManaged =>
      (cat.filter (fun i => !isManaged i), cat.filter (fun i => isManaged i))

/-- Run a sequence of catalog operations, accumulating every dropped index. -/
def idxRun (cat : List DBIndex) : List IdxOp → List DBIndex × List DBIndex
  | [] => (cat, [])
  | op :: rest =>
      let (cat1, dropped1) := idxStep cat op
      let (cat2, dropped2) := idxRun cat1 rest
      (cat2, dropped1 ++ dropped2)

theorem idxStep_dropped_managed (cat : List DBIndex) (op : IdxOp) :
    ∀ i ∈ (idxStep cat op).2, isManaged i = true := by
  intro i hi
  cases op with
  | createManaged t cols => simp [idxStep] at hi
  | dropManagedByName n =>
      simp only [idxStep, List.mem_filter, Bool.and_eq_true] at hi
      exact hi.2.1
  | dropManagedByTable t =>
      simp only [idxStep, List.mem_filter, Bool.and_eq_true] at hi
      exact hi.2.1
  | dropAllManaged =>
      simp only [idxStep, List.mem_filter] at hi
      exact hi.2

theorem idxStep_unmanaged_kept (cat : List DBIndex) (op : IdxOp) :
    ∀ i ∈ cat, isManaged i = false → i ∈ (idxStep cat op).1 := by
  intro i hi hunm
  cases op with
  | createManaged t cols => simp [idxStep, hi]
  | dropManagedByName n => simp [idxStep, List.mem_filter, hi, hunm]
  | dropManagedByTable t => simp [idxStep, List.mem_filter, hi, hunm]
  | dropAllManaged => simp [idxStep, List.mem_filter, hi, hunm]

/-- Claim C3: along every operation sequence from every starting catalog,
every index the system ever drops carries the generated-name tag, and every
untagged (externally created) index present at the start is still present
in the final catalog — no operation, including drop-by-table and the bulk
drop of all managed indexes, ever drops an index the system did not tag. -/
theorem managed_drop_only_tagged (ops : List IdxOp) (cat : List DBIndex) :
    (∀ i ∈ (idxRun cat ops).2, isManaged i = true) ∧
    (∀ i ∈ cat, isManaged i = false → i ∈ (idxRun cat ops).1) := by
  induction ops generalizing cat with
  | nil => exact ⟨fun i hi => absurd hi (List.not_mem_nil _), fun i hi _ => hi⟩
  | cons op rest ih =>
    constructor
    · intro i hi
      have hrun : (idxRun cat (op :: rest)).2
          = (idxStep cat op).2 ++ (idxRun (idxStep cat op).1 rest).2 := rfl
      rw [hrun] at hi
      rcases List.mem_append.mp hi with h | h
      · exact idxStep_dropped_managed cat op i h
      · exact (ih (idxStep cat op).1).1 i h
    · intro i hi hunm
      have hrun : (idxRun cat (op :: rest)).1 = (idxRun (idxStep cat op).1 rest).1 := rfl
      rw [hrun]
      exact (ih (idxStep cat op).1).2 i (idxStep_unmanaged_kept cat op i hi hunm) hunm

/-- A foreign, unmanaged index used to witness tag-scoped deletion. -/
def foreignIndex : DBIndex :=
  { name := "PRIMARY", table := "tabUser", cols := ["name"] }

/-- Witness for claim C3: seeding the catalog with a foreign unmanaged index
of the same table, then creating a managed index on that table, dropping by
table and bulk-dropping all managed indexes, the foreign index survives and
everything dropped was tagged. -/
theorem managed_drop_only_tagged_witness :
    foreignIndex ∈ (idxRun [foreignIndex]
      [IdxOp.createManaged "tabUser" ["modified"],
       IdxOp.dropManagedByTable "tabUser",
       IdxOp.createManaged "tabUser" ["creation"],
       IdxOp.dropAllManaged]).1 ∧
    ((idxRun [foreignIndex]
      [IdxOp.createManaged "tabUser" ["modified"],
       IdxOp.dropManagedByTable "tabUser",
       IdxOp.createManaged "tabUser" ["creation"],
       IdxOp.dropAllManaged]).2.all isManaged) = true := by
  refine ⟨(managed_drop_only_tagged _ [foreignIndex]).2 foreignIndex (by decide) (by decide),
    List.all_eq_true.mpr ?_⟩
  intro i hi
  exact (managed_drop_only_tagged _ [foreignIndex]).1 i hi

/-! ## Backtester / lifecycle manager (spec section 4.6) -/

/-- Lifecycle verdict of a candidate. -/
inductive Verdict where
  | pending
  | kept
  | dropped
  | failed
  deriving DecidableEq

/-- An index candidate to backtest. -/
structure Candidate where
  table : String
  cols : List String
  deriving DecidableEq

/-- Backtester configuration: the minimum relative rows-examined
improvement (in percent) required to keep an index. -/
structure BTConfig where
  improvementThreshold : Nat
  deriving DecidableEq

/-- Engine responses consumed by one backtest run: whether the CREATE INDEX
DDL succeeded within its timeout, and the rows-examined measurements before
and after creation. -/
structure BTEnv where
  createOk : Bool
  baselineRows : Nat
  postRows : Nat
  deriving DecidableEq

/-- A DDL statement issued against the engine. -/
inductive DDL where
  | createIndex (name : String) (table : String) (cols : List String)
  | dropIndex (name : String) (table : String)
  deriving DecidableEq

/-- Modelled from the spec: the strict allow-list pattern for identifiers
interpolated into DDL — nonempty, alphanumeric or underscore only. -/
def validIdent (s : String) : Bool :=
  (decide (s ≠ "")) && s.toList.all (fun c => c.isAlphanum || c = '_')

/-- A candidate passes validation when its table and every column pass the
allow-list check and the column list is nonempty. -/
def validCandidate (c : Candidate) : Bool :=
  validIdent c.table && (decide (c.cols ≠ [])) && c.cols.all validIdent

/-- Modelled from the spec: the improvement gate — the relative
rows-examined improvement exceeds the configured minimum percentage
(compared by cross-multiplication to stay in integers). -/
def improves (cfg : BTConfig) (env : BTEnv) : Bool :=
  decide ((env.baselineRows - env.postRows) * 100 > cfg.improvementThreshold * env.baselineRows)

/-- Result of one backtest run: final verdict, resulting catalog, and the
DDL trace issued. -/
structure BTResult where
  verdict : Verdict
  catalog : List DBIndex
  ddl : List DDL
  deriving DecidableEq

/-- Modelled from the spec: the per-candidate backtest state machine.
Validation happens before any DDL; a candidate already matching a managed
catalog entry is an idempotent no-op; a failed CREATE stops the candidate;
otherwise the index is created, measured, and kept or — when the
improvement does not exceed the threshold — dropped again. -/
def backtest (cfg : BTConfig) (env : BTEnv) (cat : List DBIndex) (c : Candidate) : BTResult :=
  if !validCandidate c then { verdict := .failed, catalog := cat, ddl := [] }
  else if cat.any (fun i => isManaged i && i.table = c.table && decide (i.cols = c.cols)) then
    { verdict := .kept, catalog := cat, ddl := [] }
  else
    let n := genName c.table c.cols
    if !env.createOk then
      { verdict := .failed, catalog := cat, ddl := [DDL.createIndex n c.table c.cols] }
    else if improves cfg env then
      { verdict := .kept,
        catalog := { name := n, table := c.table, cols := c.cols } :: cat,
        ddl := [DDL.createIndex n c.table c.cols] }
    else
      { verdict := .dropped,
        catalog := (({ name := n, table := c.table, cols := c.cols } : DBIndex) :: cat).filter
          (fun i => i.name ≠ n),
        ddl := [DDL.createIndex n c.table c.cols, DDL.dropIndex n c.table] }

/-- Claim C4: a candidate that reaches the measured state (validation
passed, not an idempotent repeat, index created) whose rows-examined
improvement is strictly below the configured threshold is transitioned to
the dropped verdict, and no index bearing the name this run created remains
in the catalog. -/
theorem backtest_below_threshold_dropped (cfg : BTConfig) (env : BTEnv)
    (cat : List DBIndex) (c : Candidate)
    (hvalid : validCandidate c = true)
    (hnew : cat.any (fun i => isManaged i && i.table = c.table && decide (i.cols = c.cols)) = false)
    (hcreate : env.createOk = true)
    (hbelow : (env.baselineRows - env.postRows) * 100 < cfg.improvementThreshold * env.baselineRows) :
    (backtest cfg env cat c).verdict = Verdict.dropped ∧
    (∀ i ∈ (backtest cfg env cat c).catalog, i.name ≠ genName c.table c.cols) := by
  have himp : improves cfg env = false := by
    simp only [improves, decide_eq_false_iff_not]
    omega
  have hres : backtest cfg env cat c =
      { verdict := .dropped,
        catalog := (({ name := genName c.table c.cols, table := c.table, cols := c.cols } : DBIndex)
          :: cat).filter (fun i => i.name ≠ genName c.table c.cols),
        ddl := [DDL.createIndex (genName c.table c.cols) c.table c.cols,
                DDL.dropIndex (genName c.table c.cols) c.table] } := by
    simp [backtest, hvalid, hnew, hcreate, himp]
  rw [hres]
  refine ⟨rfl, ?_⟩
  intro i hi
  have := List.of_mem_filter hi
  simpa using this

/-- Witness for claim C4: a concrete candidate measured at 5 percent
improvement against a 10 percent threshold is dropped and its index is gone
from the catalog afterwards. -/
theorem backtest_below_threshold_dropped_witness :
    (backtest { improvementThreshold := 10 } { createOk := true, baselineRows := 100, postRows := 95 }
      [foreignIndex] { table := "tabUser", cols := ["modified"] }).verdict = Verdict.dropped := by
  exact (backtest_below_threshold_dropped
    { improvementThreshold := 10 } { createOk := true, baselineRows := 100, postRows := 95 }
    [foreignIndex] { table := "tabUser", cols := ["modified"] }
    (by decide) (by decide) (by decide) (by decide)).1

/-- Process a list of candidates sequentially, threading the catalog and
accumulating each candidate's verdict and the full DDL trace. -/
def backtestAll (cfg : BTConfig) (envOf : Candidate → BTEnv) (cat : List DBIndex) :
    List Candidate → List (Candidate × Verdict) × List DBIndex × List DDL
  | [] => ([], cat, [])
  | c :: rest =>
      let r := backtest cfg (envOf c) cat c
      let rec1 := backtestAll cfg envOf r.catalog rest
      ((c, r.verdict) :: rec1.1, rec1.2.1, r.ddl ++ rec1.2.2)

/-- Whether every identifier interpolated into a DDL statement passes the
allow-list check. -/
def ddlValidIdents : DDL → Bool
  | .createIndex _ table cols => validIdent table && cols.all validIdent
  | .dropIndex _ table => validIdent table

theorem backtest_invalid_rejected (cfg : BTConfig) (env : BTEnv) (cat : List DBIndex)
    (c : Candidate) (h : validCandidate c = false) :
    backtest cfg env cat c = { verdict := .failed, catalog := cat, ddl := [] } := by
  simp [backtest, h]

theorem backtest_ddl_valid (cfg : BTConfig) (env : BTEnv) (cat : List DBIndex)
    (c : Candidate) : ∀ d ∈ (backtest cfg env cat c).ddl, ddlValidIdents d = true := by
  intro d hd
  by_cases hv : validCandidate c = true
  · have hparts := hv
    simp only [validCandidate, Bool.and_eq_true] at hparts
    obtain ⟨⟨htab, _⟩, hcols⟩ := hparts
    by_cases hidem : cat.any (fun i => isManaged i && i.table = c.table && decide (i.cols = c.cols)) = true
    · simp [backtest, hv, hidem] at hd
    · rw [Bool.not_eq_true] at hidem
      by_cases hcr : env.createOk = true
      · by_cases himp : improves cfg env = true
        · simp only [backtest, hv, hidem, hcr, himp, Bool.not_true, Bool.false_eq_true,
            if_false, if_true, Bool.not_false, List.mem_singleton] at hd
          subst hd
          simp [ddlValidIdents, htab, hcols]
        · rw [Bool.not_eq_true] at himp
          simp only [backtest, hv, hidem, hcr, himp, Bool.not_true, Bool.false_eq_true,
            if_false, if_true, Bool.not_false, List.mem_cons, List.mem_singleton] at hd
          rcases hd with hd | hd | hd
          · subst hd; simp [ddlValidIdents, htab, hcols]
          · subst hd; simp [ddlValidIdents, htab]
          · cases hd
      · rw [Bool.not_eq_true] at hcr
        simp only [backtest, hv, hidem, hcr, Bool.not_true, Bool.false_eq_true, if_false,
          if_true, Bool.not_false, List.mem_singleton] at hd
        subst hd
        simp [ddlValidIdents, htab, hcols]
  · rw [Bool.not_eq_true] at hv
    rw [backtest_invalid_rejected cfg env cat c hv] at hd
    cases hd

/-- Claim C8: identifiers are validated against the allow-list before any
DDL — a candidate failing validation produces the failed verdict with an
unchanged catalog and an empty DDL trace; every DDL statement the batch
ever issues carries only allow-listed identifiers; and an invalid candidate
is fatal only for itself — every candidate of the batch still receives a
verdict. -/
theorem backtest_identifier_validation (cfg : BTConfig) (envOf : Candidate → BTEnv)
    (cat : List DBIndex) (cands : List Candidate) :
    (∀ env cat2 c, validCandidate c = false →
        backtest cfg env cat2 c = { verdict := .failed, catalog := cat2, ddl := [] }) ∧
    (∀ d ∈ (backtestAll cfg envOf cat cands).2.2, ddlValidIdents d = true) ∧
    (backtestAll cfg envOf cat cands).1.length = cands.length := by
  refine ⟨fun env cat2 c h => backtest_invalid_rejected cfg env cat2 c h, ?_, ?_⟩
  · induction cands generalizing cat with
    | nil => intro d hd; cases hd
    | cons c rest ih =>
      intro d hd
      have hsplit : (backtestAll cfg envOf cat (c :: rest)).2.2
          = (backtest cfg (envOf c) cat c).ddl
            ++ (backtestAll cfg envOf (backtest cfg (envOf c) cat c).catalog rest).2.2 := rfl
      rw [hsplit] at hd
      rcases List.mem_append.mp hd with h | h
      · exact backtest_ddl_valid cfg (envOf c) cat c d h
      · exact ih _ d h
  · induction cands generalizing cat with
    | nil => rfl
    | cons c rest ih =>
      have hsplit : (backtestAll cfg envOf cat (c :: rest)).1
          = (c, (backtest cfg (envOf c) cat c).verdict)
            :: (backtestAll cfg envOf (backtest cfg (envOf c) cat c).catalog rest).1 := rfl
      rw [hsplit, List.length_cons, ih _]
      rfl

/-- A candidate with an injection-shaped table identifier, which must fail
the allow-list validation. -/
def badCandidate : Candidate :=
  { table := "tabUser; DROP TABLE tabUser", cols := ["modified"] }

/-- Witness for claim C8: the injection-shaped candidate is rejected with no
DDL issued and an unchanged catalog, while a batch containing it still
yields a verdict per candidate and only allow-listed DDL. -/
theorem backtest_identifier_validation_witness :
    backtest { improvementThreshold := 10 } { createOk := true, baselineRows := 100, postRows := 50 }
        [foreignIndex] badCandidate
      = { verdict := .failed, catalog := [foreignIndex], ddl := [] } ∧
    (backtestAll { improvementThreshold := 10 }
        (fun _ => { createOk := true, baselineRows := 100, postRows := 50 })
        [foreignIndex] [badCandidate, { table := "tabUser", cols := ["modified"] }]).1.length = 2 := by
  refine ⟨(backtest_identifier_validation { improvementThreshold := 10 }
      (fun _ => { createOk := true, baselineRows := 100, postRows := 50 })
      [foreignIndex] []).1 _ _ badCandidate (by decide), ?_⟩
  exact (backtest_identifier_validation { improvementThreshold := 10 }
      (fun _ => { createOk := true, baselineRows := 100, postRows := 50 })
      [foreignIndex] [badCandidate, { table := "tabUser", cols := ["modified"] }]).2.2

/-! ## Candidate generator / ranker (spec section 4.5) -/

/-- Lexicographic byte-order comparison of character lists, used for the
deterministic name tie-break. -/
def strLeChars : List Char → List Char → Bool
  | [], _ => true
  | _ :: _, [] => false
  | a :: as, b :: bs =>
      if a.toNat < b.toNat then true
      else if b.toNat < a.toNat then false
      else strLeChars as bs

/-- Lexicographic comparison of strings. -/
def strLe (a b : String) : Bool := strLeChars a.toList b.toList

theorem char_toNat_inj {a b : Char} (h : a.toNat = b.toNat) : a = b := by
  apply Char.ext
  exact UInt32.ext h

theorem strLeChars_total (as bs : List Char) :
    strLeChars as bs = true ∨ strLeChars bs as = true := by
  induction as generalizing bs with
  | nil => left; rfl
  | cons a as ih =>
    cases bs with
    | nil => right; rfl
    | cons b bs =>
      rcases Nat.lt_trichotomy a.toNat b.toNat with h | h | h
      · left; simp [strLeChars, h]
      · have h2 : ¬ a.toNat < b.toNat := by omega
        have h3 : ¬ b.toNat < a.toNat := by omega
        rcases ih bs with hc | hc
        · left; simp [strLeChars, h2, h3, hc]
        · right; simp [strLeChars, h2, h3, hc]
      · right; simp [strLeChars, h]

theorem strLeChars_trans {as bs cs : List Char} (h1 : strLeChars as bs = true)
    (h2 : strLeChars bs cs = true) : strLeChars as cs = true := by
  induction as generalizing bs cs with
  | nil => rfl
  | cons a as ih =>
    cases bs with
    | nil => simp [strLeChars] at h1
    | cons b bs =>
      cases cs with
      | nil => simp [strLeChars] at h2
      | cons c cs =>
        by_cases hab : a.toNat < b.toNat <;> by_cases hbc : b.toNat < c.toNat
        · simp [strLeChars, show a.toNat < c.toNat from by omega]
        · simp only [strLeChars, hbc, if_false, if_true] at h2
          by_cases hcb : c.toNat < b.toNat
          · simp [hcb] at h2
          · have hbc2 : b.toNat = c.toNat := by omega
            simp [strLeChars, show a.toNat < c.toNat from by omega]
        · simp only [strLeChars, hab, if_false, if_true] at h1
          by_cases hba : b.toNat < a.toNat
          · simp [hba] at h1
          · simp [strLeChars, show a.toNat < c.toNat from by omega]
        · simp only [strLeChars, hab, if_false] at h1
          by_cases hba : b.toNat < a.toNat
          · simp [hba] at h1
          · simp only [strLeChars, hbc, if_false] at h2
            by_cases hcb : c.toNat < b.toNat
            · simp [hcb] at h2
            · simp only [if_false, hba] at h1
              simp only [if_false, hcb] at h2
              have hnac : ¬ a.toNat < c.toNat := by omega
              have hnca : ¬ c.toNat < a.toNat := by omega
              simp only [strLeChars, hnac, hnca, if_false]
              exact ih h1 h2

theorem strLeChars_antisymm {as bs : List Char} (h1 : strLeChars as bs = true)
    (h2 : strLeChars bs as = true) : as = bs := by
  induction as generalizing bs with
  | nil =>
    cases bs with
    | nil => rfl
    | cons b bs => simp [strLeChars] at h2
  | cons a as ih =>
    cases bs with
    | nil => simp [strLeChars] at h1
    | cons b bs =>
      by_cases hab : a.toNat < b.toNat
      · have : ¬ b.toNat < a.toNat := by omega
        simp [strLeChars, this, show ¬ a.toNat = b.toNat from by omega] at h2
        omega
      · by_cases hba : b.toNat < a.toNat
        · simp [strLeChars, hab, hba] at h1
        · simp only [strLeChars, hab, hba, if_false] at h1 h2
          have hch : a = b := char_toNat_inj (by omega)
          rw [hch, ih h1 h2]

/-- The string order as a relation for sorting. -/
def strLeP (a b : String) : Prop := strLe a b = true

instance : DecidableRel strLeP := fun a b => by
  unfold strLeP
  infer_instance

instance : IsTotal String strLeP :=
  ⟨fun a b => strLeChars_total a.toList b.toList⟩

instance : IsTrans String strLeP :=
  ⟨fun _ _ _ h1 h2 => strLeChars_trans h1 h2⟩

instance : IsAntisymm String strLeP :=
  ⟨fun _ _ h1 h2 => String.toList_inj.mp (strLeChars_antisymm h1 h2)⟩

/-- Deduplicate a list of names and sort it lexicographically, making every
enumeration of keys a function of the underlying multiset. -/
def sortedDedup (l : List String) : List String := List.insertionSort strLeP l.dedup

theorem sortedDedup_perm_eq {l1 l2 : List String} (h : List.Perm l1 l2) :
    sortedDedup l1 = sortedDedup l2 := by
  apply List.eq_of_perm_of_sorted (r := strLeP)
  · exact (List.perm_insertionSort _ _).trans ((h.dedup).trans (List.perm_insertionSort _ _).symm)
  · exact List.sorted_insertionSort _ _
  · exact List.sorted_insertionSort _ _

/-- Modelled from the spec: the role a column plays in a statement. -/
inductive Role where
  | eqPred
  | rangePred
  | sortKey
  deriving DecidableEq

/-- Modelled from the spec: a column-usage descriptor produced by the
Analyzer — table, column, role, source fingerprint and occurrence weight. -/
structure ColumnUsage where
  table : String
  column : String
  role : Role
  fingerprint : String
  weight : Nat
  deriving DecidableEq

/-- Rank of a column within a usage group: 0 when it appears as an equality
predicate, else 1 when it appears as a range predicate, else 2 (sort key). -/
def colRank (us : List ColumnUsage) (c : String) : Nat :=
  if us.any (fun u => u.column = c && u.role = Role.eqPred) then 0
  else if us.any (fun u => u.column = c && u.role = Role.rangePred) then 1
  else 2

/-- Aggregate weight of a column within a usage group. -/
def colWeight (us : List ColumnUsage) (c : String) : Nat :=
  ((us.filter (fun u => u.column = c)).map (fun u => u.weight)).sum

/-- A column list entry together with its sort key (role rank, weight). -/
structure ColEntry where
  column : String
  rank : Nat
  weight : Nat
  deriving DecidableEq

/-- Modelled from the spec: candidate column ordering — equality before
range before sort (rank ascending), ties by descending aggregate weight,
then by column name for determinism. -/
def entryLe (a b : ColEntry) : Prop :=
  a.rank < b.rank ∨ (a.rank = b.rank ∧
    (b.weight < a.weight ∨ (a.weight = b.weight ∧ strLeP a.column b.column)))

instance : DecidableRel entryLe := fun a b => by
  unfold entryLe
  infer_instance

instance : IsTotal ColEntry entryLe := ⟨by
  intro a b
  rcases Nat.lt_trichotomy a.rank b.rank with h | h | h
  · exact Or.inl (Or.inl h)
  · rcases Nat.lt_trichotomy a.weight b.weight with h2 | h2 | h2
    · exact Or.inr (Or.inr ⟨h.symm, Or.inl h2⟩)
    · rcases total_of strLeP a.column b.column with hc | hc
      · exact Or.inl (Or.inr ⟨h, Or.inr ⟨h2, hc⟩⟩)
      · exact Or.inr (Or.inr ⟨h.symm, Or.inr ⟨h2.symm, hc⟩⟩)
    · exact Or.inl (Or.inr ⟨h, Or.inl h2⟩)
  · exact Or.inr (Or.inl h)⟩

instance : IsTrans ColEntry entryLe := ⟨by
  intro a b c hab hbc
  rcases hab with h1 | ⟨h1, hw1⟩ <;> rcases hbc with h2 | ⟨h2, hw2⟩
  · exact Or.inl (by omega)
  · exact Or.inl (by omega)
  · exact Or.inl (by omega)
  · rcases hw1 with hv1 | ⟨hv1, hc1⟩ <;> rcases hw2 with hv2 | ⟨hv2, hc2⟩
    · exact Or.inr ⟨by omega, Or.inl (by omega)⟩
    · exact Or.inr ⟨by omega, Or.inl (by omega)⟩
    · exact Or.inr ⟨by omega, Or.inl (by omega)⟩
    · exact Or.inr ⟨by omega, Or.inr ⟨by omega, trans_of strLeP hc1 hc2⟩⟩⟩

/-- The distinct columns of a usage group, in canonical order. -/
def colsOf (us : List ColumnUsage) : List String :=
  sortedDedup (us.map (fun u => u.column))

/-- Annotate a column with its rank and aggregate weight in a usage group. -/
def annotCol (us : List ColumnUsage) (c : String) : ColEntry :=
  { column := c, rank := colRank us c, weight := colWeight us c }

/-- The column entries of a usage group, annotated with rank and weight. -/
def entriesOf (us : List ColumnUsage) : List ColEntry :=
  (colsOf us).map (annotCol us)

/-- Modelled from the spec: the merged, ordered candidate column list of a
usage group — equality-predicate columns before range-predicate columns
before sort-key columns, ties by descending weight then name. -/
def candCols (us : List ColumnUsage) : List String :=
  (List.insertionSort entryLe (entriesOf us)).map (fun e => e.column)

/-- Aggregate weight of a candidate: total weight of its usage group. -/
def candWeight (us : List ColumnUsage) : Nat := (us.map (fun u => u.weight)).sum

/-- An index candidate produced by the generator. -/
structure GCand where
  table : String
  cols : List String
  weight : Nat
  deriving DecidableEq

/-- The usage group of one table and one source fingerprint. -/
def usagesFor (seeds : List ColumnUsage) (t fp : String) : List ColumnUsage :=
  seeds.filter (fun u => u.table = t && u.fingerprint = fp)

/-- The distinct tables of a batch, in canonical order. -/
def tablesOf (seeds : List ColumnUsage) : List String :=
  sortedDedup (seeds.map (fun u => u.table))

/-- The distinct source fingerprints seen for a table, in canonical order. -/
def fpsOf (seeds : List ColumnUsage) (t : String) : List String :=
  sortedDedup ((seeds.filter (fun u => u.table = t)).map (fun u => u.fingerprint))

/-- Build the candidate of one table and one source fingerprint, when the
usage group contributes any column. -/
def mkCand (t fp : String) (seeds : List ColumnUsage) : Option GCand :=
  if candCols (usagesFor seeds t fp) = [] then none
  else some ⟨t, candCols (usagesFor seeds t fp), candWeight (usagesFor seeds t fp)⟩

/-- Modelled from the spec: merge the batch into per-table, per-fingerprint
candidates with ordered column lists (spec 4.5 steps 1 and 2). -/
def preCandidates (seeds : List ColumnUsage) : List GCand :=
  (tablesOf seeds).flatMap (fun t =>
    (fpsOf seeds t).filterMap (fun fp => mkCand t fp seeds))

/-- Whether candidate `c` is subsumed by a longer candidate `d` of the same
table (its ordered column list is a proper prefix of `d`'s). -/
def subsumedBy (c d : GCand) : Bool :=
  c.table = d.table && decide (c.cols <+: d.cols) && decide (c.cols ≠ d.cols)

/-- Whether a live catalog index already has the candidate's exact column
list as its prefix. -/
def coveredByCatalog (catalog : List DBIndex) (c : GCand) : Bool :=
  catalog.any (fun i => i.table = c.table && decide (c.cols <+: i.cols))

/-- Modelled from the spec: a candidate survives elimination (spec 4.5 step
3) when no other candidate of its table properly extends it and no existing
index covers it. -/
def survives (pre : List GCand) (catalog : List DBIndex) (c : GCand) : Bool :=
  !(pre.any (fun d => subsumedBy c d)) && !(coveredByCatalog catalog c)

/-- Ranking relation: aggregate weight descending. -/
def weightGe (c d : GCand) : Prop := d.weight ≤ c.weight

instance : DecidableRel weightGe := fun c d => by
  unfold weightGe
  infer_instance

instance : IsTotal GCand weightGe :=
  ⟨fun a b => (Nat.le_total b.weight a.weight).imp id id⟩

instance : IsTrans GCand weightGe :=
  ⟨fun _ _ _ h1 h2 => Nat.le_trans h2 h1⟩

/-- Modelled from the spec: the full generator — build per-table
per-fingerprint candidates, eliminate subsumed or already-covered ones,
rank the survivors of each table by weight descending, and cap the number
of candidates per table. -/
def generate (seeds : List ColumnUsage) (catalog : List DBIndex) (cap : Nat) : List GCand :=
  (tablesOf seeds).flatMap (fun t =>
    (List.insertionSort weightGe
      (((preCandidates seeds).filter (survives (preCandidates seeds) catalog)).filter
        (fun c => c.table = t))).take cap)

theorem mem_generate {seeds : List ColumnUsage} {catalog : List DBIndex} {cap : Nat} {c : GCand}
    (h : c ∈ generate seeds catalog cap) :
    c ∈ preCandidates seeds ∧ survives (preCandidates seeds) catalog c = true := by
  simp only [generate] at h
  obtain ⟨t, ht, hc⟩ := List.mem_flatMap.mp h
  have h2 := List.mem_of_mem_take hc
  have h3 := (List.mem_insertionSort weightGe).mp h2
  have h4 := List.mem_filter.mp h3
  have h5 := List.mem_filter.mp h4.1
  exact ⟨h5.1, h5.2⟩

theorem mem_preCandidates {seeds : List ColumnUsage} {c : GCand} (h : c ∈ preCandidates seeds) :
    ∃ fp, c.cols = candCols (usagesFor seeds c.table fp) ∧
      c.weight = candWeight (usagesFor seeds c.table fp) := by
  simp only [preCandidates] at h
  obtain ⟨t, ht, hc⟩ := List.mem_flatMap.mp h
  obtain ⟨fp, hfp, heq⟩ := List.mem_filterMap.mp hc
  rw [mkCand] at heq
  by_cases hnil : candCols (usagesFor seeds t fp) = []
  · rw [if_pos hnil] at heq
    cases heq
  · rw [if_neg hnil] at heq
    injection heq with heq
    refine ⟨fp, ?_, ?_⟩ <;> rw [← heq]

theorem candCols_annot_eq (us : List ColumnUsage) :
    (candCols us).map (annotCol us) = List.insertionSort entryLe (entriesOf us) := by
  have key : ∀ e ∈ List.insertionSort entryLe (entriesOf us), annotCol us e.column = e := by
    intro e he
    have hmem : e ∈ entriesOf us := (List.mem_insertionSort entryLe).mp he
    obtain ⟨c, _, rfl⟩ := List.mem_map.mp hmem
    rfl
  calc ((List.insertionSort entryLe (entriesOf us)).map (fun e => e.column)).map (annotCol us)
      = (List.insertionSort entryLe (entriesOf us)).map (fun e => annotCol us e.column) := by
        rw [List.map_map]
        rfl
    _ = (List.insertionSort entryLe (entriesOf us)).map id := List.map_congr_left key
    _ = List.insertionSort entryLe (entriesOf us) := List.map_id _

/-- The candidate ordering invariant: annotating each column of the list
with its role rank and aggregate weight within the usage group yields a
list sorted by `entryLe` (equality before range before sort, ties by
descending weight then name). -/
def colsSortedFor (us : List ColumnUsage) (cols : List String) : Prop :=
  List.Sorted entryLe (cols.map (annotCol us))

theorem candCols_sorted (us : List ColumnUsage) : colsSortedFor us (candCols us) := by
  unfold colsSortedFor
  rw [candCols_annot_eq us]
  exact List.sorted_insertionSort entryLe _

/-- Claim C5: every candidate the generator outputs takes its ordered column
list from its usage group, and that list places equality-predicate columns
before range-predicate columns before sort-key columns, with ties ordered
by descending aggregate weight and then by column name (the list annotated
with rank and weight is sorted by `entryLe`); the ordering invariant holds
for the merged column list of every usage group. -/
theorem generator_column_order (seeds : List ColumnUsage) (catalog : List DBIndex) (cap : Nat) :
    (∀ cand ∈ generate seeds catalog cap, ∃ fp,
        cand.cols = candCols (usagesFor seeds cand.table fp) ∧
        colsSortedFor (usagesFor seeds cand.table fp) cand.cols) ∧
    (∀ us : List ColumnUsage, colsSortedFor us (candCols us)) := by
  constructor
  · intro cand hc
    obtain ⟨hpre, _⟩ := mem_generate hc
    obtain ⟨fp, hcols, _⟩ := mem_preCandidates hpre
    refine ⟨fp, hcols, ?_⟩
    rw [hcols]
    exact candCols_sorted _
  · exact fun us => candCols_sorted us

/-- Claim C6: when one pre-merge candidate's ordered column list is a proper
prefix of another candidate's for the same table, the generator's output
excludes the prefix candidate; likewise a candidate is excluded when a live
catalog index already carries its exact column list as a prefix. -/
theorem generator_subsumption (seeds : List ColumnUsage) (catalog : List DBIndex) (cap : Nat) :
    (∀ c d : GCand, c ∈ preCandidates seeds → d ∈ preCandidates seeds → c.table = d.table →
        c.cols <+: d.cols → c.cols ≠ d.cols → c ∉ generate seeds catalog cap) ∧
    (∀ c : GCand, ∀ i : DBIndex, c ∈ preCandidates seeds → i ∈ catalog → i.table = c.table →
        c.cols <+: i.cols → c ∉ generate seeds catalog cap) := by
  constructor
  · intro c d hc hd htab hisp hne hgen
    obtain ⟨_, hsurv⟩ := mem_generate hgen
    simp only [survives, Bool.and_eq_true, Bool.not_eq_true', List.any_eq_false] at hsurv
    have hcd := hsurv.1 d hd
    simp only [subsumedBy, Bool.and_eq_true, decide_eq_true_eq, Bool.and_eq_false_iff,
      decide_eq_false_iff_not] at hcd
    exact hcd ⟨⟨htab, hisp⟩, hne⟩
  · intro c i hc hi htab hisp hgen
    obtain ⟨_, hsurv⟩ := mem_generate hgen
    simp only [survives, Bool.and_eq_true, Bool.not_eq_true', List.any_eq_false] at hsurv
    have hci := hsurv.2
    simp only [coveredByCatalog, List.any_eq_false] at hci
    have := hci i hi
    exact this (by simp [htab, hisp])

theorem perm_any_eq {l1 l2 : List ColumnUsage} (h : List.Perm l1 l2) (p : ColumnUsage → Bool) :
    l1.any p = l2.any p := by
  apply Bool.eq_iff_iff.mpr
  simp only [List.any_eq_true]
  exact ⟨fun hx => hx.imp (fun x px => ⟨h.mem_iff.mp px.1, px.2⟩),
    fun hx => hx.imp (fun x px => ⟨h.mem_iff.mpr px.1, px.2⟩)⟩

theorem colRank_perm_eq {us1 us2 : List ColumnUsage} (h : List.Perm us1 us2) (c : String) :
    colRank us1 c = colRank us2 c := by
  unfold colRank
  rw [perm_any_eq h, perm_any_eq h]

theorem colWeight_perm_eq {us1 us2 : List ColumnUsage} (h : List.Perm us1 us2) (c : String) :
    colWeight us1 c = colWeight us2 c :=
  ((h.filter _).map _).sum_eq

theorem colsOf_perm_eq {us1 us2 : List ColumnUsage} (h : List.Perm us1 us2) :
    colsOf us1 = colsOf us2 :=
  sortedDedup_perm_eq (h.map _)

theorem entriesOf_perm_eq {us1 us2 : List ColumnUsage} (h : List.Perm us1 us2) :
    entriesOf us1 = entriesOf us2 := by
  unfold entriesOf
  rw [colsOf_perm_eq h]
  apply List.map_congr_left
  intro c _
  unfold annotCol
  rw [colRank_perm_eq h c, colWeight_perm_eq h c]

theorem candCols_perm_eq {us1 us2 : List ColumnUsage} (h : List.Perm us1 us2) :
    candCols us1 = candCols us2 := by
  unfold candCols
  rw [entriesOf_perm_eq h]

theorem candWeight_perm_eq {us1 us2 : List ColumnUsage} (h : List.Perm us1 us2) :
    candWeight us1 = candWeight us2 :=
  (h.map _).sum_eq

theorem tablesOf_perm_eq {s1 s2 : List ColumnUsage} (h : List.Perm s1 s2) :
    tablesOf s1 = tablesOf s2 :=
  sortedDedup_perm_eq (h.map _)

theorem fpsOf_perm_eq {s1 s2 : List ColumnUsage} (h : List.Perm s1 s2) (t : String) :
    fpsOf s1 t = fpsOf s2 t :=
  sortedDedup_perm_eq ((h.filter _).map _)

theorem usagesFor_perm {s1 s2 : List ColumnUsage} (h : List.Perm s1 s2) (t fp : String) :
    List.Perm (usagesFor s1 t fp) (usagesFor s2 t fp) :=
  h.filter _

theorem mkCand_perm_eq {s1 s2 : List ColumnUsage} (h : List.Perm s1 s2) (t fp : String) :
    mkCand t fp s1 = mkCand t fp s2 := by
  unfold mkCand
  rw [candCols_perm_eq (usagesFor_perm h t fp), candWeight_perm_eq (usagesFor_perm h t fp)]

theorem preCandidates_perm_eq {s1 s2 : List ColumnUsage} (h : List.Perm s1 s2) :
    preCandidates s1 = preCandidates s2 := by
  unfold preCandidates
  rw [tablesOf_perm_eq h]
  have hfun : (fun t => (fpsOf s1 t).filterMap (fun fp => mkCand t fp s1))
      = (fun t => (fpsOf s2 t).filterMap (fun fp => mkCand t fp s2)) := by
    funext t
    rw [fpsOf_perm_eq h t]
    have hg : (fun fp => mkCand t fp s1) = (fun fp => mkCand t fp s2) := by
      funext fp
      exact mkCand_perm_eq h t fp
    rw [hg]
  rw [hfun]

/-- Claim C7: the generator is deterministic — its output is a function of
the batch as a multiset and the live catalog snapshot, so two runs on the
same batch (in particular, on any reordering of the same recorded seeds)
and catalog yield identical ranked candidate lists. -/
theorem generator_deterministic (seeds1 seeds2 : List ColumnUsage) (catalog : List DBIndex)
    (cap : Nat) (h : List.Perm seeds1 seeds2) :
    generate seeds1 catalog cap = generate seeds2 catalog cap := by
  unfold generate
  rw [tablesOf_perm_eq h, preCandidates_perm_eq h]

/-- Concrete seeds: one query shape on tabItem with two equality predicates
and one sort key, all of weight 5. -/
def seedsA : List ColumnUsage :=
  [ { table := "tabItem", column := "status", role := .eqPred, fingerprint := "fpA", weight := 5 },
    { table := "tabItem", column := "posting_date", role := .sortKey, fingerprint := "fpA", weight := 5 },
    { table := "tabItem", column := "customer", role := .eqPred, fingerprint := "fpA", weight := 5 } ]

/-- Witness for claim C5: the concrete candidate generated from `seedsA`
orders the equality columns (alphabetically: customer, status) before the
sort key (posting_date), and the ordering invariant holds for its group. -/
theorem generator_column_order_witness :
    ({ table := "tabItem", cols := ["customer", "status", "posting_date"], weight := 15 } : GCand)
        ∈ generate seedsA [] 5 ∧
    colsSortedFor (usagesFor seedsA "tabItem" "fpA") (candCols (usagesFor seedsA "tabItem" "fpA")) :=
  ⟨by decide, (generator_column_order seedsA [] 5).2 (usagesFor seedsA "tabItem" "fpA")⟩

/-- Concrete seeds: two query shapes on tabOrder, one using only customer,
the other using customer and status. -/
def seedsB : List ColumnUsage :=
  [ { table := "tabOrder", column := "customer", role := .eqPred, fingerprint := "fpP", weight := 4 },
    { table := "tabOrder", column := "customer", role := .eqPred, fingerprint := "fpQ", weight := 6 },
    { table := "tabOrder", column := "status", role := .rangePred, fingerprint := "fpQ", weight := 6 } ]

/-- A live catalog index on tabOrder extending (customer, status). -/
def existingOrderIndex : DBIndex :=
  { name := "idx_customer_status_name", table := "tabOrder", cols := ["customer", "status", "name"] }

/-- Witness for claim C6: the (customer) candidate is generated pre-merge
but excluded from the output because (customer, status) extends it; and
with an existing catalog index on (customer, status, name), the
(customer, status) candidate is excluded too. -/
theorem generator_subsumption_witness :
    ({ table := "tabOrder", cols := ["customer"], weight := 4 } : GCand) ∈ preCandidates seedsB ∧
    ({ table := "tabOrder", cols := ["customer"], weight := 4 } : GCand)
        ∉ generate seedsB [] 5 ∧
    ({ table := "tabOrder", cols := ["customer", "status"], weight := 12 } : GCand)
        ∉ generate seedsB [existingOrderIndex] 5 :=
  ⟨by decide,
   (generator_subsumption seedsB [] 5).1
     { table := "tabOrder", cols := ["customer"], weight := 4 }
     { table := "tabOrder", cols := ["customer", "status"], weight := 12 }
     (by decide) (by decide) (by decide) (by decide) (by decide),
   (generator_subsumption seedsB [existingOrderIndex] 5).2
     { table := "tabOrder", cols := ["customer", "status"], weight := 12 }
     existingOrderIndex
     (by decide) (by decide) (by decide) (by decide)⟩

/-- Witness for claim C7: generating from the reversed seed list yields the
identical output. -/
theorem generator_deterministic_witness :
    generate seedsA [] 5 = generate seedsA.reverse [] 5 :=
  generator_deterministic seedsA seedsA.reverse [] 5 (by decide)

end Toolbox
